import Mathlib

set_option maxRecDepth 8000

/-!
Shallow embedding of `scripts/ai_code_reviewer.py`.

Python strings are modelled as lists of code points (`PyStr`), which matches
Python's `str` semantics (`len`, slicing and concatenation act on code
points).  The filesystem seen by `collect_repo_context` is modelled as a
tree value `FS`; a file carries `some content` when `read_text` succeeds and
`none` when reading or UTF-8 decoding raises.
-/

abbrev PyStr := List Char

/-- Kind of a directory entry produced by `Path.rglob("*")`: a directory, or a
file whose decoded content is `some s` (readable UTF-8) or `none` (reading or
decoding raises). -/
inductive EntryKind where
  | dirE : EntryKind
  | fileE : Option PyStr → EntryKind
deriving DecidableEq

/-- A directory tree.  `dir` children are (name, subtree) pairs. -/
inductive FS where
  | file : Option PyStr → FS
  | dir : List (String × FS) → FS

-- Entries below a named child / a list of named children, as (relative path
-- parts, kind) pairs: the set of paths yielded by `repo_root.rglob("*")`
-- (order is re-established afterwards by sorting, as the Python code sorts).
mutual

/-- Entries contributed by one named child (itself and, for directories,
everything below it). -/
def subEntries : String → FS → List (List String × EntryKind)
  | n, FS.file c => [([n], EntryKind.fileE c)]
  | n, FS.dir cs =>
      ([n], EntryKind.dirE) :: (entriesList cs).map (fun e => (n :: e.1, e.2))

/-- Entries below a list of named children. -/
def entriesList : List (String × FS) → List (List String × EntryKind)
  | [] => []
  | (n, t) :: rest => subEntries n t ++ entriesList rest

end

/-- Entries of `repo_root.rglob("*")` for a root tree.  A root that is not a
directory yields no entries. -/
def entriesOf : FS → List (List String × EntryKind)
  | FS.file _ => []
  | FS.dir cs => entriesList cs

/-- The string form of a relative path (POSIX separators), as produced by
`str(path.relative_to(repo_root))`. -/
def pathChars : List String → PyStr
  | [] => []
  | [p] => p.toList
  | p :: ps => p.toList ++ '/' :: pathChars ps

/-- Code-point lexicographic `≤` on strings, Python's `str` comparison, used
by `sorted` on paths (which compares path strings). -/
def pyStrLeB : PyStr → PyStr → Bool
  | [], _ => true
  | _ :: _, [] => false
  | a :: as, b :: bs => if a = b then pyStrLeB as bs else decide (a < b)

/-- Insert an entry into a list sorted by path string. -/
def insertEntry (x : List String × EntryKind) :
    List (List String × EntryKind) → List (List String × EntryKind)
  | [] => [x]
  | y :: ys =>
      if pyStrLeB (pathChars x.1) (pathChars y.1) then x :: y :: ys
      else y :: insertEntry x ys

/-- `sorted(repo_root.rglob("*"))`: entries sorted by path string. -/
def sortEntries (l : List (List String × EntryKind)) :
    List (List String × EntryKind) :=
  l.foldr insertEntry []

/-- `EXCLUDE_DIRS` from `collect_repo_context`. -/
def EXCLUDE_DIRS : List String :=
  [".git", "node_modules", "venv", "__pycache__", ".mypy_cache"]

/-- `EXCLUDE_EXTENSIONS` from `collect_repo_context`. -/
def EXCLUDE_EXTENSIONS : List PyStr :=
  [".png".toList, ".jpg".toList, ".jpeg".toList, ".gif".toList, ".svg".toList,
   ".pdf".toList, ".zip".toList, ".gz".toList, ".tar".toList, ".sqlite".toList]

/-- `any(part in EXCLUDE_DIRS for part in path.parts)`. -/
def isExcludedPath (parts : List String) : Bool :=
  parts.any (fun part => EXCLUDE_DIRS.contains part)

/-- Index of the last '.' in a name (`str.rfind('.')`), if any. -/
def rfindDotAux : PyStr → Nat → Option Nat → Option Nat
  | [], _, acc => acc
  | c :: cs, i, acc => rfindDotAux cs (i + 1) (if c = '.' then some i else acc)

/-- `name.rfind('.')` as an `Option` (Python returns -1 when absent). -/
def rfindDot (name : PyStr) : Option Nat :=
  rfindDotAux name 0 none

/-- `PurePath.suffix` computed from the final component's name:
`name[i:]` when `0 < i < len(name) - 1` for `i = name.rfind('.')`, else `''`. -/
def pySuffix (name : PyStr) : PyStr :=
  match rfindDot name with
  | none => []
  | some i => if 0 < i && i + 1 < name.length then name.drop i else []

/-- `str.lower()` (ASCII case folding suffices for the extension sets). -/
def lowerChars (s : PyStr) : PyStr := s.map Char.toLower

/-- The final component of a relative path (`path.name`). -/
def lastName (rel : List String) : PyStr := (rel.getLastD "").toList

/-- `path.suffix.lower() in EXCLUDE_EXTENSIONS`. -/
def extExcluded (rel : List String) : Bool :=
  EXCLUDE_EXTENSIONS.contains (lowerChars (pySuffix (lastName rel)))

/-- `f"\n\n# File: {path.relative_to(repo_root)}\n\n"`. -/
def chunkHeader (rel : List String) : PyStr :=
  "\n\n# File: ".toList ++ pathChars rel ++ "\n\n".toList

/-- The main loop of `collect_repo_context`: for each sorted entry, skip
excluded paths, directories, excluded extensions and unreadable files; build
`chunk = chunk_header + content`; `break` when
`current_len + len(chunk) > max_chars`, else append the chunk and continue. -/
def collectLoop (rootParts : List String) (max_chars : Nat) :
    List (List String × EntryKind) → Nat → List PyStr
  | [], _ => []
  | (rel, k) :: rest, current_len =>
    if isExcludedPath (rootParts ++ rel) then
      collectLoop rootParts max_chars rest current_len
    else
      match k with
      | EntryKind.dirE => collectLoop rootParts max_chars rest current_len
      | EntryKind.fileE c =>
        if extExcluded rel then collectLoop rootParts max_chars rest current_len
        else
          match c with
          | none => collectLoop rootParts max_chars rest current_len
          | some content =>
            let chunk := chunkHeader rel ++ content
            if max_chars < current_len + chunk.length then []
            else chunk :: collectLoop rootParts max_chars rest (current_len + chunk.length)

/-- `collect_repo_context(repo_root, max_chars)`.  `rootParts` are the path
components of `repo_root` itself (`repo_root.parts`), which are part of
`path.parts` for every discovered entry. -/
def collect_repo_context (rootParts : List String) (repo_root : FS)
    (max_chars : Nat) : PyStr :=
  (collectLoop rootParts max_chars (sortEntries (entriesOf repo_root)) 0).flatten

/-- The collection loop, instrumented to remember which relative path each
collected chunk came from.  `collectLoop` is its image under `Prod.snd`. -/
def collectEntries (rootParts : List String) (max_chars : Nat) :
    List (List String × EntryKind) → Nat → List (List String × PyStr)
  | [], _ => []
  | (rel, k) :: rest, current_len =>
    if isExcludedPath (rootParts ++ rel) then
      collectEntries rootParts max_chars rest current_len
    else
      match k with
      | EntryKind.dirE => collectEntries rootParts max_chars rest current_len
      | EntryKind.fileE c =>
        if extExcluded rel then collectEntries rootParts max_chars rest current_len
        else
          match c with
          | none => collectEntries rootParts max_chars rest current_len
          | some content =>
            let chunk := chunkHeader rel ++ content
            if max_chars < current_len + chunk.length then []
            else (rel, chunk) :: collectEntries rootParts max_chars rest (current_len + chunk.length)

/-- The (path, chunk) pairs actually collected by `collect_repo_context`. -/
def contextEntries (rootParts : List String) (repo_root : FS)
    (max_chars : Nat) : List (List String × PyStr) :=
  collectEntries rootParts max_chars (sortEntries (entriesOf repo_root)) 0

/-- All chunks that pass the three skip tests and decode, in entry order,
ignoring the budget: the candidates the loop would consider. -/
def candidateChunks (rootParts : List String) :
    List (List String × EntryKind) → List PyStr
  | [] => []
  | (rel, k) :: rest =>
    if isExcludedPath (rootParts ++ rel) then candidateChunks rootParts rest
    else
      match k with
      | EntryKind.dirE => candidateChunks rootParts rest
      | EntryKind.fileE c =>
        if extExcluded rel then candidateChunks rootParts rest
        else
          match c with
          | none => candidateChunks rootParts rest
          | some content => (chunkHeader rel ++ content) :: candidateChunks rootParts rest

-- ===== Basic lemmas about the collector =====

theorem collectLoop_eq_map_snd (r : List String) (m : Nat)
    (es : List (List String × EntryKind)) (cur : Nat) :
    collectLoop r m es cur = (collectEntries r m es cur).map Prod.snd := by
  induction es generalizing cur with
  | nil => rfl
  | cons e rest ih =>
    obtain ⟨rel, k⟩ := e
    cases hx : isExcludedPath (r ++ rel) with
    | true => simpa [collectLoop, collectEntries, hx] using ih cur
    | false =>
      cases k with
      | dirE => simpa [collectLoop, collectEntries, hx] using ih cur
      | fileE c =>
        cases hext : extExcluded rel with
        | true => simpa [collectLoop, collectEntries, hx, hext] using ih cur
        | false =>
          cases c with
          | none => simpa [collectLoop, collectEntries, hx, hext] using ih cur
          | some content =>
            by_cases hfit : m < cur + (List.length (chunkHeader rel) + List.length content)
            · simp [collectLoop, collectEntries, hx, hext, hfit]
            · simp [collectLoop, collectEntries, hx, hext, hfit, ih]

theorem collectEntries_sound (r : List String) (m : Nat)
    (es : List (List String × EntryKind)) (cur : Nat)
    (rel : List String) (ch : PyStr)
    (h : (rel, ch) ∈ collectEntries r m es cur) :
    ∃ content, (rel, EntryKind.fileE (some content)) ∈ es ∧
      ch = chunkHeader rel ++ content ∧
      isExcludedPath (r ++ rel) = false ∧ extExcluded rel = false := by
  induction es generalizing cur with
  | nil => simp [collectEntries] at h
  | cons e rest ih =>
    obtain ⟨rel', k⟩ := e
    cases hx : isExcludedPath (r ++ rel') with
    | true =>
      simp only [collectEntries, hx, if_true] at h
      obtain ⟨c, hc⟩ := ih cur h
      exact ⟨c, List.mem_cons_of_mem _ hc.1, hc.2⟩
    | false =>
      cases k with
      | dirE =>
        simp [collectEntries, hx] at h
        obtain ⟨c, hc⟩ := ih cur h
        exact ⟨c, List.mem_cons_of_mem _ hc.1, hc.2⟩
      | fileE c =>
        cases hext : extExcluded rel' with
        | true =>
          simp [collectEntries, hx, hext] at h
          obtain ⟨c', hc⟩ := ih cur h
          exact ⟨c', List.mem_cons_of_mem _ hc.1, hc.2⟩
        | false =>
          cases c with
          | none =>
            simp [collectEntries, hx, hext] at h
            obtain ⟨c', hc⟩ := ih cur h
            exact ⟨c', List.mem_cons_of_mem _ hc.1, hc.2⟩
          | some content =>
            by_cases hfit : m < cur + (List.length (chunkHeader rel') + List.length content)
            · simp [collectEntries, hx, hext, hfit] at h
            · simp [collectEntries, hx, hext, hfit] at h
              rcases h with ⟨h1, h2⟩ | hmem
              · subst h1
                exact ⟨content, List.mem_cons_self _ _, h2, hx, hext⟩
              · obtain ⟨c', hc⟩ := ih _ hmem
                exact ⟨c', List.mem_cons_of_mem _ hc.1, hc.2⟩

theorem collectLoop_sum_le (r : List String) (m : Nat)
    (es : List (List String × EntryKind)) (cur : Nat) (h : cur ≤ m) :
    cur + ((collectLoop r m es cur).map List.length).sum ≤ m := by
  induction es generalizing cur with
  | nil => simpa [collectLoop] using h
  | cons e rest ih =>
    obtain ⟨rel, k⟩ := e
    cases hx : isExcludedPath (r ++ rel) with
    | true =>
      simp only [collectLoop, hx, if_true]
      exact ih cur h
    | false =>
      cases k with
      | dirE =>
        simpa [collectLoop, hx] using ih cur h
      | fileE c =>
        cases hext : extExcluded rel with
        | true => simpa [collectLoop, hx, hext] using ih cur h
        | false =>
          cases c with
          | none => simpa [collectLoop, hx, hext] using ih cur h
          | some content =>
            by_cases hfit : m < cur + (List.length (chunkHeader rel) + List.length content)
            · simp [collectLoop, hx, hext, hfit]
              omega
            · have hle : cur + (List.length (chunkHeader rel) + List.length content) ≤ m := by
                omega
              have h2 := ih (cur + (List.length (chunkHeader rel) + List.length content)) hle
              simp [collectLoop, hx, hext, hfit]
              omega

theorem collectLoop_prefix_of_candidates (r : List String) (m : Nat)
    (es : List (List String × EntryKind)) (cur : Nat) :
    ∃ rest, candidateChunks r es = collectLoop r m es cur ++ rest ∧
      (rest = [] ∨ ∃ c rest', rest = c :: rest' ∧
        m < cur + ((collectLoop r m es cur).map List.length).sum + c.length) := by
  induction es generalizing cur with
  | nil => exact ⟨[], rfl, Or.inl rfl⟩
  | cons e rest ih =>
    obtain ⟨rel, k⟩ := e
    cases hx : isExcludedPath (r ++ rel) with
    | true =>
      simpa [candidateChunks, collectLoop, hx] using ih cur
    | false =>
      cases k with
      | dirE => simpa [candidateChunks, collectLoop, hx] using ih cur
      | fileE c =>
        cases hext : extExcluded rel with
        | true => simpa [candidateChunks, collectLoop, hx, hext] using ih cur
        | false =>
          cases c with
          | none => simpa [candidateChunks, collectLoop, hx, hext] using ih cur
          | some content =>
            by_cases hfit : m < cur + (List.length (chunkHeader rel) + List.length content)
            · refine ⟨(chunkHeader rel ++ content) :: candidateChunks r rest, ?_, ?_⟩
              · simp [candidateChunks, collectLoop, hx, hext, hfit]
              · refine Or.inr ⟨chunkHeader rel ++ content, candidateChunks r rest, rfl, ?_⟩
                simp [collectLoop, hx, hext, hfit]
            · obtain ⟨tail, htail, hcond⟩ := ih (cur + (List.length (chunkHeader rel) + List.length content))
              refine ⟨tail, ?_, ?_⟩
              · simp [candidateChunks, collectLoop, hx, hext, hfit, htail]
              · rcases hcond with hnil | ⟨c', tail', heq, hlt⟩
                · exact Or.inl hnil
                · refine Or.inr ⟨c', tail', heq, ?_⟩
                  simp [collectLoop, hx, hext, hfit]
                  omega

theorem collectLoop_nil_of_all_excluded (r : List String) (m : Nat)
    (es : List (List String × EntryKind)) (cur : Nat)
    (h : ∀ e ∈ es, isExcludedPath (r ++ e.1) = true) :
    collectLoop r m es cur = [] := by
  induction es generalizing cur with
  | nil => rfl
  | cons e rest ih =>
    obtain ⟨rel, k⟩ := e
    have hx : isExcludedPath (r ++ rel) = true := h _ (List.mem_cons_self _ _)
    simp only [collectLoop, hx, if_true]
    exact ih cur (fun e he => h e (List.mem_cons_of_mem _ he))

/-- No entry of the list is a readable file. -/
def noReadableFile (es : List (List String × EntryKind)) : Bool :=
  es.all (fun e =>
    match e.2 with
    | EntryKind.fileE (some _) => false
    | _ => true)

theorem collectLoop_nil_of_no_readable (r : List String) (m : Nat)
    (es : List (List String × EntryKind)) (cur : Nat)
    (h : noReadableFile es = true) :
    collectLoop r m es cur = [] := by
  induction es generalizing cur with
  | nil => rfl
  | cons e rest ih =>
    obtain ⟨rel, k⟩ := e
    simp only [noReadableFile, List.all_cons, Bool.and_eq_true] at h
    obtain ⟨hk, hrest'⟩ := h
    have hrest : noReadableFile rest = true := hrest'
    cases hx : isExcludedPath (r ++ rel) with
    | true => simpa [collectLoop, hx] using ih cur hrest
    | false =>
      cases k with
      | dirE => simpa [collectLoop, hx] using ih cur hrest
      | fileE c =>
        cases c with
        | none => simp [collectLoop, hx, ih cur hrest]
        | some content => simp at hk

theorem mem_insertEntry (x a : List String × EntryKind)
    (l : List (List String × EntryKind)) :
    a ∈ insertEntry x l ↔ a = x ∨ a ∈ l := by
  induction l with
  | nil => simp [insertEntry]
  | cons y ys ih =>
    simp only [insertEntry]
    split
    · simp [List.mem_cons]
    · simp only [List.mem_cons, ih]
      tauto

theorem mem_sortEntries (a : List String × EntryKind)
    (l : List (List String × EntryKind)) :
    a ∈ sortEntries l ↔ a ∈ l := by
  induction l with
  | nil => simp [sortEntries]
  | cons x xs ih =>
    have : sortEntries (x :: xs) = insertEntry x (sortEntries xs) := rfl
    rw [this, mem_insertEntry]
    simp only [List.mem_cons, ih]

-- ===== Claims about the collector =====

/-- Claim C1: for every directory tree and configured maximum character count,
the string returned by `collect_repo_context` has length at most `max_chars`;
every collected chunk is a whole chunk (header plus the full file content of a
file of the tree); and the collected chunks are an initial segment of the
candidate chunks: at the first candidate whose addition would exceed the
budget, collection stops entirely and no later candidate is considered. -/
theorem c1_budget_and_whole_chunks (rootParts : List String) (tree : FS)
    (max_chars : Nat) :
    (collect_repo_context rootParts tree max_chars).length ≤ max_chars ∧
    (∀ ch ∈ collectLoop rootParts max_chars (sortEntries (entriesOf tree)) 0,
      ∃ rel content, ch = chunkHeader rel ++ content ∧
        (rel, EntryKind.fileE (some content)) ∈ entriesOf tree) ∧
    (∃ rest, candidateChunks rootParts (sortEntries (entriesOf tree))
        = collectLoop rootParts max_chars (sortEntries (entriesOf tree)) 0 ++ rest ∧
      (rest = [] ∨ ∃ c rest', rest = c :: rest' ∧
        max_chars < (collect_repo_context rootParts tree max_chars).length + c.length)) := by
  refine ⟨?_, ?_, ?_⟩
  · have h := collectLoop_sum_le rootParts max_chars
      (sortEntries (entriesOf tree)) 0 (Nat.zero_le _)
    simpa [collect_repo_context, List.length_flatten] using h
  · intro ch hch
    rw [collectLoop_eq_map_snd] at hch
    obtain ⟨⟨rel, ch'⟩, hin, hsnd⟩ := List.mem_map.mp hch
    obtain ⟨content, hmem, heq, _, _⟩ := collectEntries_sound _ _ _ _ _ _ hin
    exact ⟨rel, content, by simpa [hsnd] using heq.symm ▸ hsnd.symm,
      (mem_sortEntries _ _).mp hmem⟩
  · obtain ⟨rest, hrest, hcond⟩ := collectLoop_prefix_of_candidates rootParts
      max_chars (sortEntries (entriesOf tree)) 0
    refine ⟨rest, hrest, ?_⟩
    rcases hcond with hnil | ⟨c, rest', heq, hlt⟩
    · exact Or.inl hnil
    · refine Or.inr ⟨c, rest', heq, ?_⟩
      have : (collect_repo_context rootParts tree max_chars).length
          = ((collectLoop rootParts max_chars (sortEntries (entriesOf tree)) 0).map
              List.length).sum := by
        simp [collect_repo_context, List.length_flatten]
      omega

/-- Claim C2: a file one of whose full-path components (root components
included) is an excluded directory name contributes no chunk to the collected
context, whatever its extension or content. -/
theorem c2_excluded_dir_component (rootParts : List String) (tree : FS)
    (max_chars : Nat) (rel : List String) (part : String)
    (hpart : part ∈ rootParts ++ rel) (hexcl : part ∈ EXCLUDE_DIRS) :
    rel ∉ (contextEntries rootParts tree max_chars).map Prod.fst := by
  intro hmem
  obtain ⟨⟨rel', ch⟩, hin, hfst⟩ := List.mem_map.mp hmem
  cases hfst
  obtain ⟨content, _, _, hx, _⟩ := collectEntries_sound _ _ _ _ _ _ hin
  have htrue : isExcludedPath (rootParts ++ rel') = true := by
    simp only [isExcludedPath, List.any_eq_true]
    exact ⟨part, hpart, by simpa using hexcl⟩
  rw [htrue] at hx
  cases hx

/-- Claim C7: a file whose suffix, lowercased, is in the binary-extension
exclusion set contributes no chunk to the collected context, even when its
content is readable text. -/
theorem c7_excluded_extension (rootParts : List String) (tree : FS)
    (max_chars : Nat) (rel : List String)
    (hext : lowerChars (pySuffix (lastName rel)) ∈ EXCLUDE_EXTENSIONS) :
    rel ∉ (contextEntries rootParts tree max_chars).map Prod.fst := by
  intro hmem
  obtain ⟨⟨rel', ch⟩, hin, hfst⟩ := List.mem_map.mp hmem
  cases hfst
  obtain ⟨content, _, _, _, hx⟩ := collectEntries_sound _ _ _ _ _ _ hin
  have htrue : extExcluded rel' = true := by
    simp only [extExcluded]
    simpa using hext
  rw [htrue] at hx
  cases hx

/-- Claim C9: `collect_repo_context` is a total function of the tree (no
error path): unreadable or undecodable files are skipped — every collected
chunk comes from a file whose decode succeeded — and a repository with no
readable file, in particular an empty or unreadable one, yields the empty
context. -/
theorem c9_unreadable_skipped (rootParts : List String) (max_chars : Nat) :
    (∀ tree, noReadableFile (entriesOf tree) = true →
      collect_repo_context rootParts tree max_chars = []) ∧
    collect_repo_context rootParts (FS.dir []) max_chars = [] ∧
    (∀ tree rel ch, (rel, ch) ∈ contextEntries rootParts tree max_chars →
      ∃ content, (rel, EntryKind.fileE (some content)) ∈ entriesOf tree ∧
        ch = chunkHeader rel ++ content) := by
  refine ⟨?_, by rfl, ?_⟩
  · intro tree h
    have hs : noReadableFile (sortEntries (entriesOf tree)) = true := by
      simp only [noReadableFile, List.all_eq_true] at h ⊢
      intro e he
      exact h e ((mem_sortEntries _ _).mp he)
    simp [collect_repo_context, collectLoop_nil_of_no_readable _ _ _ _ hs]
  · intro tree rel ch hin
    obtain ⟨content, hmem, heq, _, _⟩ := collectEntries_sound _ _ _ _ _ _ hin
    exact ⟨content, (mem_sortEntries _ _).mp hmem, heq⟩

/-- Claim C10: when the root directory's own path contains an excluded
directory name, every entry of every tree is excluded and the collected
context is empty. -/
theorem c10_excluded_root (rootParts : List String) (tree : FS)
    (max_chars : Nat) (part : String) (hpart : part ∈ rootParts)
    (hexcl : part ∈ EXCLUDE_DIRS) :
    collect_repo_context rootParts tree max_chars = [] := by
  unfold collect_repo_context
  rw [collectLoop_nil_of_all_excluded]
  · rfl
  · intro e _
    simp only [isExcludedPath, List.any_eq_true]
    exact ⟨part, List.mem_append_left _ hpart, by simpa using hexcl⟩

/-- A small concrete repository tree used to instantiate the theorems. -/
def demoTree : FS :=
  FS.dir
    [(".git", FS.dir [("x", FS.file (some "hi".toList))]),
     ("__pycache__", FS.dir [("dummy.pyc", FS.file (some "binary".toList))]),
     ("docs", FS.dir [("readme.md", FS.file (some "# docs\n".toList))]),
     ("logo.png", FS.file (some "binarydata".toList)),
     ("a.py", FS.file (some "print".toList))]

/-- A tree whose only file cannot be read or decoded. -/
def unreadableTree : FS := FS.dir [("junk.bin", FS.file none)]

/-- Witness for C2 at a concrete input. -/
theorem c2_excluded_dir_component_witness :
    (".git" ∈ (["repo"] ++ [".git", "x"]) ∧ ".git" ∈ EXCLUDE_DIRS) ∧
    [".git", "x"] ∉ (contextEntries ["repo"] demoTree 10000).map Prod.fst :=
  ⟨⟨by decide, by decide⟩,
    c2_excluded_dir_component ["repo"] demoTree 10000 [".git", "x"] ".git"
      (by decide) (by decide)⟩

/-- Witness for C7 at a concrete input. -/
theorem c7_excluded_extension_witness :
    lowerChars (pySuffix (lastName ["logo.png"])) ∈ EXCLUDE_EXTENSIONS ∧
    ["logo.png"] ∉ (contextEntries ["repo"] demoTree 10000).map Prod.fst :=
  ⟨by decide,
    c7_excluded_extension ["repo"] demoTree 10000 ["logo.png"] (by decide)⟩

/-- Witness for C9 at a concrete input. -/
theorem c9_unreadable_skipped_witness :
    noReadableFile (entriesOf unreadableTree) = true ∧
    collect_repo_context ["r"] unreadableTree 50 = [] :=
  ⟨by decide, (c9_unreadable_skipped ["r"] 50).1 unreadableTree (by decide)⟩

/-- Witness for C10 at a concrete input. -/
theorem c10_excluded_root_witness :
    ("venv" ∈ ["home", "venv", "proj"] ∧ "venv" ∈ EXCLUDE_DIRS) ∧
    collect_repo_context ["home", "venv", "proj"] demoTree 10000 = [] :=
  ⟨⟨by decide, by decide⟩,
    c10_excluded_root ["home", "venv", "proj"] demoTree 10000 "venv"
      (by decide) (by decide)⟩

-- ===== textwrap.dedent and build_messages =====

/-- Split a text into its lines at each newline, `text.split('\n')`:
always returns at least one (possibly empty) line. -/
def splitLines : PyStr → List PyStr
  | [] => [[]]
  | c :: cs =>
    if c = '\n' then [] :: splitLines cs
    else
      match splitLines cs with
      | [] => [[c]]
      | l :: ls => (c :: l) :: ls

/-- Join lines with newlines, `'\n'.join(lines)`. -/
def joinLines : List PyStr → PyStr
  | [] => []
  | [l] => l
  | l :: ls => l ++ '\n' :: joinLines ls

/-- A space or a tab: the whitespace class of dedent's regexes. -/
def wsTab (c : Char) : Bool := c = ' ' || c = '\t'

/-- A nonempty line made only of spaces and tabs: `^[ \t]+$`. -/
def isBlankWs (l : PyStr) : Bool := !l.isEmpty && l.all wsTab

/-- The leading space/tab run of a line: the `([ \t]*)` capture. -/
def leadingWs (l : PyStr) : PyStr := l.takeWhile wsTab

/-- Longest common prefix of two character lists. -/
def commonPrefix : PyStr → PyStr → PyStr
  | x :: xs, y :: ys => if x = y then x :: commonPrefix xs ys else []
  | _, _ => []

/-- One step of `textwrap.dedent`'s margin computation over the indents. -/
def marginStep (m : Option PyStr) (indent : PyStr) : Option PyStr :=
  match m with
  | none => some indent
  | some mg =>
    if mg.isPrefixOf indent then some mg
    else if indent.isPrefixOf mg then some indent
    else some (commonPrefix mg indent)

/-- `_whitespace_only_re.sub('', text)`: normalize whitespace-only lines to
empty lines. -/
def blankWsLines (ls : List PyStr) : List PyStr :=
  ls.map (fun l => if isBlankWs l then [] else l)

/-- The common margin of the (already blanked) lines, from the leading
whitespace of every line that has a non-whitespace character. -/
def marginOf (ls : List PyStr) : PyStr :=
  (((ls.filter (fun l => !l.isEmpty)).map leadingWs).foldl marginStep none).getD []

/-- `re.sub(r'(?m)^' + margin, '', text)`: drop the margin from every line
that starts with it (a no-op when the margin is empty). -/
def stripMargin (m : PyStr) (ls : List PyStr) : List PyStr :=
  if m.isEmpty then ls
  else ls.map (fun l => if m.isPrefixOf l then l.drop m.length else l)

/-- `textwrap.dedent(text)`. -/
def dedent (t : PyStr) : PyStr :=
  joinLines (stripMargin (marginOf (blankWsLines (splitLines t)))
    (blankWsLines (splitLines t)))

theorem splitLines_ne_nil (s : PyStr) : splitLines s ≠ [] := by
  induction s with
  | nil => simp [splitLines]
  | cons c cs ih =>
    simp only [splitLines]
    split
    · simp
    · split
      · simp
      · simp

theorem splitLines_nl (b : PyStr) : splitLines ('\n' :: b) = [] :: splitLines b := by
  simp [splitLines]

theorem splitLines_append_nlfree (a : PyStr) (b : PyStr) (h : '\n' ∉ a) :
    splitLines (a ++ b) = (a ++ (splitLines b).headD []) :: (splitLines b).tail := by
  induction a with
  | nil =>
    obtain ⟨hd, tl, he⟩ := List.exists_cons_of_ne_nil (splitLines_ne_nil b)
    simp [he]
  | cons c a' ih =>
    have hc : c ≠ '\n' := fun hc => h (hc ▸ List.mem_cons_self _ _)
    have h' : '\n' ∉ a' := fun hm => h (List.mem_cons_of_mem _ hm)
    simp only [List.cons_append, splitLines, if_neg hc, List.append_eq]
    rw [ih h']

theorem splitLines_append_nl (a : PyStr) (b : PyStr) (h : '\n' ∉ a) :
    splitLines (a ++ '\n' :: b) = a :: splitLines b := by
  rw [splitLines_append_nlfree a _ h, splitLines_nl]
  simp

theorem splitLines_nlfree (a : PyStr) (h : '\n' ∉ a) : splitLines a = [a] := by
  have := splitLines_append_nlfree a [] h
  simpa [splitLines] using this

theorem nl_not_mem_splitLines (s : PyStr) : ∀ l ∈ splitLines s, '\n' ∉ l := by
  induction s with
  | nil => simp [splitLines]
  | cons c cs ih =>
    by_cases hc : c = '\n'
    · subst hc
      rw [splitLines_nl]
      intro l hl
      rcases List.mem_cons.mp hl with h | h
      · simp [h]
      · exact ih l h
    · simp only [splitLines, if_neg hc]
      obtain ⟨hd, tl, he⟩ := List.exists_cons_of_ne_nil (splitLines_ne_nil cs)
      rw [he]
      intro l hl
      rcases List.mem_cons.mp hl with h | h
      · subst h
        intro hmem
        rcases List.mem_cons.mp hmem with h' | h'
        · exact hc h'.symm
        · exact ih hd (he ▸ List.mem_cons_self _ _) h'
      · exact ih l (he ▸ List.mem_cons_of_mem _ h)

theorem joinLines_splitLines (s : PyStr) : joinLines (splitLines s) = s := by
  induction s with
  | nil => simp [splitLines, joinLines]
  | cons c cs ih =>
    by_cases hc : c = '\n'
    · subst hc
      rw [splitLines_nl]
      obtain ⟨hd, tl, he⟩ := List.exists_cons_of_ne_nil (splitLines_ne_nil cs)
      rw [he]
      rw [he] at ih
      simpa [joinLines] using ih
    · simp only [splitLines, if_neg hc]
      obtain ⟨hd, tl, he⟩ := List.exists_cons_of_ne_nil (splitLines_ne_nil cs)
      rw [he]
      rw [he] at ih
      cases tl with
      | nil => simpa [joinLines] using congrArg (c :: ·) ih
      | cons x xs => simpa [joinLines] using congrArg (c :: ·) ih

theorem splitLines_joinLines_append (ls : List PyStr)
    (h : ∀ l ∈ ls, '\n' ∉ l) (hne : ls ≠ []) (z : PyStr) :
    splitLines (joinLines ls ++ '\n' :: z) = ls ++ splitLines z := by
  induction ls with
  | nil => exact absurd rfl hne
  | cons l rest ih =>
    cases rest with
    | nil =>
      simp only [joinLines]
      rw [splitLines_append_nl _ _ (h l (List.mem_cons_self _ _))]
      simp
    | cons m r =>
      simp only [joinLines, List.append_assoc, List.cons_append]
      rw [splitLines_append_nl _ _ (h l (List.mem_cons_self _ _))]
      rw [ih (fun x hx => h x (List.mem_cons_of_mem _ hx)) (by simp)]
      simp

theorem joinLines_cons_of_ne (x : PyStr) (r : List PyStr) (hr : r ≠ []) :
    joinLines (x :: r) = x ++ '\n' :: joinLines r := by
  cases r with
  | nil => exact absurd rfl hr
  | cons m r' => simp [joinLines]

theorem joinLines_append (xs ys : List PyStr) (hxs : xs ≠ []) (hys : ys ≠ []) :
    joinLines (xs ++ ys) = joinLines xs ++ '\n' :: joinLines ys := by
  induction xs with
  | nil => exact absurd rfl hxs
  | cons x xs' ih =>
    cases xs' with
    | nil =>
      simp only [List.singleton_append]
      rw [joinLines_cons_of_ne _ _ hys]
      simp [joinLines]
    | cons y ys' =>
      have h1 : (y :: ys') ++ ys ≠ [] := by simp
      rw [List.cons_append, joinLines_cons_of_ne _ _ h1, ih (by simp),
        joinLines_cons_of_ne x (y :: ys') (by simp)]
      simp

theorem joinLines_cons_append_left (a x : PyStr) (r : List PyStr) :
    joinLines ((a ++ x) :: r) = a ++ joinLines (x :: r) := by
  cases r with
  | nil => simp [joinLines]
  | cons m r' =>
    rw [joinLines_cons_of_ne (a ++ x) (m :: r') (by simp),
      joinLines_cons_of_ne x (m :: r') (by simp)]
    simp

-- ===== build_messages =====

/-- A chat message: a role tag and text content. -/
structure Message where
  role : String
  content : PyStr
deriving DecidableEq

/-- The built-in system instruction used when no prompt file exists. -/
def DEFAULT_SYSTEM_MSG : PyStr :=
  ("You are a senior Python code reviewer. Provide constructive, actionable feedback " ++
   "focused on readability, efficiency, security, testing, and maintainability. " ++
   "Reference file paths / line numbers from the diff. Respond with a brief summary " ++
   "followed by bullet-pointed issues and concrete suggestions. Praise positives too.").toList

/-- Python `str.isspace` characters relevant to `str.strip()`. -/
def isPyWs (c : Char) : Bool :=
  c = ' ' || c = '\t' || c = '\n' || c = '\r' || c = '\x0b' || c = '\x0c'

/-- `str.strip()`: drop leading and trailing whitespace. -/
def pyStrip (s : PyStr) : PyStr :=
  ((s.dropWhile isPyWs).reverse.dropWhile isPyWs).reverse

/-- The f-string around the diff in `build_messages` (before `dedent`). -/
def diffTemplate (diff : PyStr) : PyStr :=
  "\n        Here is the diff of the latest commit:\n        ```diff\n        ".toList
    ++ diff ++ "\n        ```\n        ".toList

/-- The f-string around the context in `build_messages` (before `dedent`). -/
def contextTemplate (ctx : PyStr) : PyStr :=
  "\n\n            Here is additional project context (truncated if necessary):\n            ```\n            ".toList
    ++ ctx ++ "\n            ```\n            ".toList

/-- `build_messages(diff, context)`.  `promptFile` is `some text` when
`PROMPT_PATH.exists()` and reading it yields `text`, `none` otherwise. -/
def build_messages (promptFile : Option PyStr) (diff : PyStr)
    (context : Option PyStr) : List Message :=
  let system_msg :=
    match promptFile with
    | some t => pyStrip t
    | none => DEFAULT_SYSTEM_MSG
  let user0 := dedent (diffTemplate diff)
  let user_content :=
    match context with
    | some c => if !c.isEmpty then user0 ++ dedent (contextTemplate c) else user0
    | none => user0
  [⟨"system", system_msg⟩, ⟨"user", user_content⟩]

-- Named pieces of the two templates, for the dedent computation.

/-- Eight spaces: the indentation of the diff template's lines. -/
def sp8 : PyStr := "        ".toList

/-- Twelve spaces: the indentation of the context template's lines. -/
def sp12 : PyStr := "            ".toList

/-- The diff lead-in sentence. -/
def diffLead : PyStr := "Here is the diff of the latest commit:".toList

/-- The context lead-in sentence. -/
def ctxLead : PyStr := "Here is additional project context (truncated if necessary):".toList

/-- The opening fence of the diff block. -/
def fenceDiff : PyStr := "```diff".toList

/-- A plain code fence. -/
def fence : PyStr := "```".toList

theorem diffTemplate_eq (d : PyStr) :
    diffTemplate d
      = '\n' :: ((sp8 ++ diffLead) ++ '\n' :: ((sp8 ++ fenceDiff)
          ++ '\n' :: (sp8 ++ (d ++ '\n' :: ((sp8 ++ fence) ++ '\n' :: sp8))))) := by
  have h1 : "\n        Here is the diff of the latest commit:\n        ```diff\n        ".toList
      = '\n' :: ((sp8 ++ diffLead) ++ '\n' :: ((sp8 ++ fenceDiff) ++ '\n' :: sp8)) := by decide
  have h2 : "\n        ```\n        ".toList = '\n' :: ((sp8 ++ fence) ++ '\n' :: sp8) := by decide
  rw [diffTemplate, h1, h2]
  simp [List.append_assoc]

theorem contextTemplate_eq (c : PyStr) :
    contextTemplate c
      = '\n' :: '\n' :: ((sp12 ++ ctxLead) ++ '\n' :: ((sp12 ++ fence)
          ++ '\n' :: (sp12 ++ (c ++ '\n' :: ((sp12 ++ fence) ++ '\n' :: sp12))))) := by
  have h1 : "\n\n            Here is additional project context (truncated if necessary):\n            ```\n            ".toList
      = '\n' :: '\n' :: ((sp12 ++ ctxLead) ++ '\n' :: ((sp12 ++ fence) ++ '\n' :: sp12)) := by decide
  have h2 : "\n            ```\n            ".toList = '\n' :: ((sp12 ++ fence) ++ '\n' :: sp12) := by decide
  rw [contextTemplate, h1, h2]
  simp [List.append_assoc]

/-- The line is nonempty and starts with a character other than space/tab. -/
def headNonWs : PyStr → Bool
  | [] => false
  | c :: _ => !wsTab c

theorem headNonWs_cases (l : PyStr) (h : headNonWs l = true) :
    ∃ c cs, l = c :: cs ∧ wsTab c = false := by
  cases l with
  | nil => simp [headNonWs] at h
  | cons c cs =>
    refine ⟨c, cs, rfl, ?_⟩
    simpa [headNonWs] using h

theorem isBlankWs_false_of_mem {l : PyStr} {c : Char} (hc : c ∈ l)
    (h : wsTab c = false) : isBlankWs l = false := by
  have hne : l.isEmpty = false := by
    cases l
    · simp at hc
    · simp
  have hall : l.all wsTab = false := by
    rcases hall : l.all wsTab with _ | _
    · rfl
    · exact absurd (List.all_eq_true.mp hall c hc) (by simp [h])
  simp [isBlankWs, hne, hall]

theorem mapId_of {α : Type} (f : α → α) (l : List α) (h : ∀ a ∈ l, f a = a) :
    l.map f = l := by
  induction l with
  | nil => rfl
  | cons x xs ih =>
    rw [List.map_cons, h x (List.mem_cons_self _ _),
      ih (fun a ha => h a (List.mem_cons_of_mem _ ha))]

theorem filterId_of {α : Type} (p : α → Bool) (l : List α)
    (h : ∀ a ∈ l, p a = true) : l.filter p = l := by
  induction l with
  | nil => rfl
  | cons x xs ih =>
    rw [List.filter_cons_of_pos (h x (List.mem_cons_self _ _)),
      ih (fun a ha => h a (List.mem_cons_of_mem _ ha))]

theorem takeWhileAll_append {p : Char → Bool} (xs ys : List Char)
    (h : ∀ x ∈ xs, p x = true) :
    (xs ++ ys).takeWhile p = xs ++ ys.takeWhile p := by
  induction xs with
  | nil => rfl
  | cons x xs' ih =>
    rw [List.cons_append, List.takeWhile_cons_of_pos (h x (List.mem_cons_self _ _)),
      ih (fun a ha => h a (List.mem_cons_of_mem _ ha))]
    rfl

theorem leadingWs_nil_of_headNonWs (l : PyStr) (h : headNonWs l = true) :
    leadingWs l = [] := by
  obtain ⟨c, cs, rfl, hc⟩ := headNonWs_cases l h
  simp [leadingWs, hc]

theorem leadingWs_ws_append (a x : PyStr) (ha : ∀ c ∈ a, wsTab c = true)
    (hx : headNonWs x = true) : leadingWs (a ++ x) = a := by
  rw [leadingWs, takeWhileAll_append a x ha]
  rw [show x.takeWhile wsTab = leadingWs x from rfl, leadingWs_nil_of_headNonWs x hx]
  simp

theorem nil_isPrefixOf (x : PyStr) : ([] : PyStr).isPrefixOf x = true := by
  cases x <;> rfl

theorem isPrefixOf_append_self (a b : PyStr) : a.isPrefixOf (a ++ b) = true := by
  induction a with
  | nil => exact nil_isPrefixOf b
  | cons c cs ih => simp [List.isPrefixOf, ih]

theorem foldl_marginStep_some_nil (l : List PyStr) :
    List.foldl marginStep (some []) l = some [] := by
  induction l with
  | nil => rfl
  | cons x xs ih =>
    rw [List.foldl_cons, show marginStep (some []) x = some [] from by
      simp [marginStep, nil_isPrefixOf]]
    exact ih

theorem splitLines_diffTemplate (d d0 : PyStr) (ds : List PyStr)
    (h : splitLines d = d0 :: ds) :
    splitLines (diffTemplate d)
      = [] :: (sp8 ++ diffLead) :: (sp8 ++ fenceDiff)
          :: (sp8 ++ d0) :: (ds ++ [sp8 ++ fence, sp8]) := by
  rw [diffTemplate_eq, splitLines_nl,
    splitLines_append_nl (sp8 ++ diffLead) _ (by decide),
    splitLines_append_nl (sp8 ++ fenceDiff) _ (by decide),
    splitLines_append_nlfree sp8 _ (by decide)]
  have hrt : d = joinLines (d0 :: ds) := by
    rw [← h, joinLines_splitLines]
  rw [show d ++ '\n' :: ((sp8 ++ fence) ++ '\n' :: sp8)
      = joinLines (d0 :: ds) ++ '\n' :: ((sp8 ++ fence) ++ '\n' :: sp8) from by
    rw [← hrt]]
  rw [splitLines_joinLines_append (d0 :: ds) (h ▸ nl_not_mem_splitLines d) (by simp) _,
    splitLines_append_nl (sp8 ++ fence) _ (by decide),
    splitLines_nlfree sp8 (by decide)]
  simp

theorem splitLines_contextTemplate (c c0 : PyStr) (cs : List PyStr)
    (h : splitLines c = c0 :: cs) :
    splitLines (contextTemplate c)
      = [] :: [] :: (sp12 ++ ctxLead) :: (sp12 ++ fence)
          :: (sp12 ++ c0) :: (cs ++ [sp12 ++ fence, sp12]) := by
  rw [contextTemplate_eq, splitLines_nl, splitLines_nl,
    splitLines_append_nl (sp12 ++ ctxLead) _ (by decide),
    splitLines_append_nl (sp12 ++ fence) _ (by decide),
    splitLines_append_nlfree sp12 _ (by decide)]
  have hrt : c = joinLines (c0 :: cs) := by
    rw [← h, joinLines_splitLines]
  rw [show c ++ '\n' :: ((sp12 ++ fence) ++ '\n' :: sp12)
      = joinLines (c0 :: cs) ++ '\n' :: ((sp12 ++ fence) ++ '\n' :: sp12) from by
    rw [← hrt]]
  rw [splitLines_joinLines_append (c0 :: cs) (h ▸ nl_not_mem_splitLines c) (by simp) _,
    splitLines_append_nl (sp12 ++ fence) _ (by decide),
    splitLines_nlfree sp12 (by decide)]
  simp

theorem isEmpty_false_append_left (a b : PyStr) (ha : a.isEmpty = false) :
    (a ++ b).isEmpty = false := by
  cases a with
  | nil => simp at ha
  | cons c cs => simp

theorem dedent_diffTemplate_decomp (d : PyStr)
    (hd : (splitLines d).all headNonWs = true) :
    ∃ a u v z, dedent (diffTemplate d)
      = a ++ fenceDiff ++ ('\n' :: u) ++ d ++ v ++ fence ++ z := by
  obtain ⟨d0, ds, hsplit⟩ := List.exists_cons_of_ne_nil (splitLines_ne_nil d)
  have hall : ∀ l ∈ splitLines d, headNonWs l = true := List.all_eq_true.mp hd
  have hd0 : headNonWs d0 = true := hall d0 (by rw [hsplit]; exact List.mem_cons_self _ _)
  have hds : ∀ l ∈ ds, headNonWs l = true := fun l hl =>
    hall l (by rw [hsplit]; exact List.mem_cons_of_mem _ hl)
  obtain ⟨ch0, ct0, hd0eq, hch0⟩ := headNonWs_cases d0 hd0
  have hblank : blankWsLines (splitLines (diffTemplate d))
      = [] :: (sp8 ++ diffLead) :: (sp8 ++ fenceDiff)
          :: (sp8 ++ d0) :: (ds ++ [sp8 ++ fence, []]) := by
    rw [splitLines_diffTemplate d d0 ds hsplit]
    have h1 : isBlankWs (sp8 ++ diffLead) = false := by decide
    have h2 : isBlankWs (sp8 ++ fenceDiff) = false := by decide
    have h3 : isBlankWs (sp8 ++ d0) = false :=
      isBlankWs_false_of_mem
        (by rw [hd0eq]; exact List.mem_append_right _ (List.mem_cons_self _ _)) hch0
    have h4 : isBlankWs (sp8 ++ fence) = false := by decide
    have h5 : isBlankWs sp8 = true := by decide
    have h6 : ds.map (fun l => if isBlankWs l then [] else l) = ds :=
      mapId_of _ _ (fun l hl => by
        obtain ⟨cc, crest, hle, hcc⟩ := headNonWs_cases l (hds l hl)
        rw [isBlankWs_false_of_mem (by rw [hle]; exact List.mem_cons_self _ _) hcc]
        simp)
    simp [blankWsLines, h1, h2, h3, h4, h5, h6]
  have hfiltmap : ((blankWsLines (splitLines (diffTemplate d))).filter
        (fun l => !l.isEmpty)).map leadingWs
      = sp8 :: sp8 :: sp8 :: (ds.map leadingWs ++ [sp8]) := by
    rw [hblank]
    have hA : (sp8 ++ diffLead).isEmpty = false := isEmpty_false_append_left _ _ (by decide)
    have hB : (sp8 ++ fenceDiff).isEmpty = false := isEmpty_false_append_left _ _ (by decide)
    have hC : (sp8 ++ d0).isEmpty = false := isEmpty_false_append_left _ _ (by decide)
    have hD : (sp8 ++ fence).isEmpty = false := isEmpty_false_append_left _ _ (by decide)
    have h6 : ds.filter (fun l => !l.isEmpty) = ds :=
      filterId_of _ _ (fun l hl => by
        obtain ⟨cc, crest, hle, _⟩ := headNonWs_cases l (hds l hl)
        rw [hle]
        simp)
    have l1 : leadingWs (sp8 ++ diffLead) = sp8 :=
      leadingWs_ws_append _ _ (by decide) (by decide)
    have l2 : leadingWs (sp8 ++ fenceDiff) = sp8 :=
      leadingWs_ws_append _ _ (by decide) (by decide)
    have l3 : leadingWs (sp8 ++ d0) = sp8 :=
      leadingWs_ws_append _ _ (by decide) hd0
    have l4 : leadingWs (sp8 ++ fence) = sp8 :=
      leadingWs_ws_append _ _ (by decide) (by decide)
    simp [List.filter_append, h6, hA, hB, hC, hD, l1, l2, l3, l4]
  cases ds with
  | nil =>
    have hmargin : marginOf (blankWsLines (splitLines (diffTemplate d))) = sp8 := by
      rw [marginOf, hfiltmap]
      decide
    have hd0d : d = d0 := by
      have := joinLines_splitLines d
      rw [hsplit] at this
      simpa [joinLines] using this.symm
    have hpre : sp8.isPrefixOf ([] : PyStr) = false := by decide
    have sdrop : ∀ x : PyStr,
        (if sp8.isPrefixOf (sp8 ++ x) then (sp8 ++ x).drop sp8.length else sp8 ++ x)
          = x := fun x => by
      simp [isPrefixOf_append_self, List.drop_left]
    refine ⟨'\n' :: diffLead ++ ['\n'], [], ['\n'], ['\n'], ?_⟩
    rw [dedent, hmargin, hblank, stripMargin]
    simp only [show (sp8.isEmpty = true) = False from by simp [sp8], if_false]
    simp only [List.map_cons, List.map_append, List.nil_append, List.map_nil, hpre,
      Bool.false_eq_true, if_false, sdrop]
    rw [hd0d]
    simp [joinLines, List.append_assoc]
  | cons e ds' =>
    have hmargin : marginOf (blankWsLines (splitLines (diffTemplate d))) = [] := by
      rw [marginOf, hfiltmap]
      have he : leadingWs e = [] :=
        leadingWs_nil_of_headNonWs e (hds e (List.mem_cons_self _ _))
      rw [List.map_cons, he]
      have e1 : marginStep none sp8 = some sp8 := rfl
      have e2 : marginStep (some sp8) sp8 = some sp8 := by decide
      have e3 : marginStep (some sp8) [] = some [] := by decide
      simp only [List.cons_append, List.foldl_cons, e1, e2, e3]
      rw [foldl_marginStep_some_nil]
      rfl
    rw [dedent, hmargin, hblank, stripMargin]
    simp only [List.isEmpty_nil, if_true]
    have hjoin : joinLines ((sp8 ++ d0) :: ((e :: ds') ++ [sp8 ++ fence, []]))
        = sp8 ++ (d ++ '\n' :: ((sp8 ++ fence) ++ ['\n'])) := by
      rw [show (sp8 ++ d0) :: ((e :: ds') ++ [sp8 ++ fence, []])
          = ((sp8 ++ d0) :: (e :: ds')) ++ [sp8 ++ fence, []] from rfl]
      rw [joinLines_append ((sp8 ++ d0) :: (e :: ds')) [sp8 ++ fence, []]
        (by simp) (by simp)]
      rw [joinLines_cons_append_left sp8 d0 (e :: ds')]
      have hjd : joinLines (d0 :: e :: ds') = d := by
        rw [← hsplit]
        exact joinLines_splitLines d
      rw [hjd]
      simp [joinLines, List.append_assoc]
    rw [joinLines_cons_of_ne [] _ (by simp),
      joinLines_cons_of_ne (sp8 ++ diffLead) _ (by simp),
      joinLines_cons_of_ne (sp8 ++ fenceDiff) _ (by simp), hjoin]
    refine ⟨'\n' :: (sp8 ++ diffLead) ++ '\n' :: sp8, sp8, '\n' :: sp8, ['\n'], ?_⟩
    simp [List.append_assoc]

theorem dedent_contextTemplate_decomp (c : PyStr)
    (hc : (splitLines c).all headNonWs = true) :
    ∃ a u v z, dedent (contextTemplate c)
      = a ++ fence ++ ('\n' :: u) ++ c ++ v ++ fence ++ z := by
  obtain ⟨c0, cs, hsplit⟩ := List.exists_cons_of_ne_nil (splitLines_ne_nil c)
  have hall : ∀ l ∈ splitLines c, headNonWs l = true := List.all_eq_true.mp hc
  have hc0 : headNonWs c0 = true := hall c0 (by rw [hsplit]; exact List.mem_cons_self _ _)
  have hcs : ∀ l ∈ cs, headNonWs l = true := fun l hl =>
    hall l (by rw [hsplit]; exact List.mem_cons_of_mem _ hl)
  obtain ⟨ch0, ct0, hc0eq, hch0⟩ := headNonWs_cases c0 hc0
  have hblank : blankWsLines (splitLines (contextTemplate c))
      = [] :: [] :: (sp12 ++ ctxLead) :: (sp12 ++ fence)
          :: (sp12 ++ c0) :: (cs ++ [sp12 ++ fence, []]) := by
    rw [splitLines_contextTemplate c c0 cs hsplit]
    have h1 : isBlankWs (sp12 ++ ctxLead) = false := by decide
    have h2 : isBlankWs (sp12 ++ fence) = false := by decide
    have h3 : isBlankWs (sp12 ++ c0) = false :=
      isBlankWs_false_of_mem
        (by rw [hc0eq]; exact List.mem_append_right _ (List.mem_cons_self _ _)) hch0
    have h5 : isBlankWs sp12 = true := by decide
    have h6 : cs.map (fun l => if isBlankWs l then [] else l) = cs :=
      mapId_of _ _ (fun l hl => by
        obtain ⟨cc, crest, hle, hcc⟩ := headNonWs_cases l (hcs l hl)
        rw [isBlankWs_false_of_mem (by rw [hle]; exact List.mem_cons_self _ _) hcc]
        simp)
    simp [blankWsLines, h1, h2, h3, h5, h6]
  have hfiltmap : ((blankWsLines (splitLines (contextTemplate c))).filter
        (fun l => !l.isEmpty)).map leadingWs
      = sp12 :: sp12 :: sp12 :: (cs.map leadingWs ++ [sp12]) := by
    rw [hblank]
    have hA : (sp12 ++ ctxLead).isEmpty = false := isEmpty_false_append_left _ _ (by decide)
    have hB : (sp12 ++ fence).isEmpty = false := isEmpty_false_append_left _ _ (by decide)
    have hC : (sp12 ++ c0).isEmpty = false := isEmpty_false_append_left _ _ (by decide)
    have h6 : cs.filter (fun l => !l.isEmpty) = cs :=
      filterId_of _ _ (fun l hl => by
        obtain ⟨cc, crest, hle, _⟩ := headNonWs_cases l (hcs l hl)
        rw [hle]
        simp)
    have l1 : leadingWs (sp12 ++ ctxLead) = sp12 :=
      leadingWs_ws_append _ _ (by decide) (by decide)
    have l2 : leadingWs (sp12 ++ fence) = sp12 :=
      leadingWs_ws_append _ _ (by decide) (by decide)
    have l3 : leadingWs (sp12 ++ c0) = sp12 :=
      leadingWs_ws_append _ _ (by decide) hc0
    simp [List.filter_append, h6, hA, hB, hC, l1, l2, l3]
  cases cs with
  | nil =>
    have hmargin : marginOf (blankWsLines (splitLines (contextTemplate c))) = sp12 := by
      rw [marginOf, hfiltmap]
      decide
    have hc0c : c = c0 := by
      have := joinLines_splitLines c
      rw [hsplit] at this
      simpa [joinLines] using this.symm
    have hpre : sp12.isPrefixOf ([] : PyStr) = false := by decide
    have sdrop : ∀ x : PyStr,
        (if sp12.isPrefixOf (sp12 ++ x) then (sp12 ++ x).drop sp12.length else sp12 ++ x)
          = x := fun x => by
      simp [isPrefixOf_append_self, List.drop_left]
    refine ⟨'\n' :: '\n' :: ctxLead ++ ['\n'], [], ['\n'], ['\n'], ?_⟩
    rw [dedent, hmargin, hblank, stripMargin]
    simp only [show (sp12.isEmpty = true) = False from by simp [sp12], if_false]
    simp only [List.map_cons, List.map_append, List.nil_append, List.map_nil, hpre,
      Bool.false_eq_true, if_false, sdrop]
    rw [hc0c]
    simp [joinLines, List.append_assoc]
  | cons e cs' =>
    have hmargin : marginOf (blankWsLines (splitLines (contextTemplate c))) = [] := by
      rw [marginOf, hfiltmap]
      have he : leadingWs e = [] :=
        leadingWs_nil_of_headNonWs e (hcs e (List.mem_cons_self _ _))
      rw [List.map_cons, he]
      have e1 : marginStep none sp12 = some sp12 := rfl
      have e2 : marginStep (some sp12) sp12 = some sp12 := by decide
      have e3 : marginStep (some sp12) [] = some [] := by decide
      simp only [List.cons_append, List.foldl_cons, e1, e2, e3]
      rw [foldl_marginStep_some_nil]
      rfl
    rw [dedent, hmargin, hblank, stripMargin]
    simp only [List.isEmpty_nil, if_true]
    have hjoin : joinLines ((sp12 ++ c0) :: ((e :: cs') ++ [sp12 ++ fence, []]))
        = sp12 ++ (c ++ '\n' :: ((sp12 ++ fence) ++ ['\n'])) := by
      rw [show (sp12 ++ c0) :: ((e :: cs') ++ [sp12 ++ fence, []])
          = ((sp12 ++ c0) :: (e :: cs')) ++ [sp12 ++ fence, []] from rfl]
      rw [joinLines_append ((sp12 ++ c0) :: (e :: cs')) [sp12 ++ fence, []]
        (by simp) (by simp)]
      rw [joinLines_cons_append_left sp12 c0 (e :: cs')]
      have hjc : joinLines (c0 :: e :: cs') = c := by
        rw [← hsplit]
        exact joinLines_splitLines c
      rw [hjc]
      simp [joinLines, List.append_assoc]
    rw [joinLines_cons_of_ne [] _ (by simp),
      joinLines_cons_of_ne [] _ (by simp),
      joinLines_cons_of_ne (sp12 ++ ctxLead) _ (by simp),
      joinLines_cons_of_ne (sp12 ++ fence) _ (by simp), hjoin]
    refine ⟨'\n' :: '\n' :: (sp12 ++ ctxLead) ++ '\n' :: sp12, sp12, '\n' :: sp12, ['\n'], ?_⟩
    simp [List.append_assoc]

-- ===== Claims about build_messages =====

/-- Claim C3 (counterexample): for the diff " a\n b" — two lines, each
beginning with a space, as unified-diff context lines do — the user message
of the built conversation does not contain the diff verbatim: `dedent`
strips the common one-space margin inside the interpolated diff. -/
theorem c3_counterexample :
    ¬ ((build_messages none " a\n b".toList none).map Message.role
        = ["system", "user"] ∧
      ∃ pre post, ((build_messages none " a\n b".toList none).getD 1 ⟨"", []⟩).content
        = pre ++ " a\n b".toList ++ post) := by
  rintro ⟨-, pre, post, h⟩
  have hinf : " a\n b".toList
      <:+: ((build_messages none " a\n b".toList none).getD 1 ⟨"", []⟩).content :=
    ⟨pre, post, h.symm⟩
  exact absurd hinf (by decide)

/-- Claim C3 (amended): `build_messages` returns exactly two messages, system
then user, the user content beginning with the dedented diff block; when every
line of the diff is nonempty and starts with a non-whitespace character, the
user content contains the diff verbatim inside the ```diff fence; and when a
non-empty context whose lines all start with a non-whitespace character is
supplied, the user content is the diff block followed by a fenced block
containing the context verbatim — the context after the diff. -/
theorem c3_amended (pf : Option PyStr) (diff ctx : PyStr)
    (hdiff : (splitLines diff).all headNonWs = true)
    (hctx : (splitLines ctx).all headNonWs = true) (hne : ctx ≠ []) :
    (∀ context : Option PyStr, ∃ sys rest,
      build_messages pf diff context
        = [⟨"system", sys⟩, ⟨"user", dedent (diffTemplate diff) ++ rest⟩]) ∧
    (∃ a u v z, dedent (diffTemplate diff)
        = a ++ fenceDiff ++ ('\n' :: u) ++ diff ++ v ++ fence ++ z) ∧
    (∃ sys a u v z a' u' v' z',
      build_messages pf diff (some ctx)
        = [⟨"system", sys⟩, ⟨"user",
            (a ++ fenceDiff ++ ('\n' :: u) ++ diff ++ v ++ fence ++ z)
              ++ (a' ++ fence ++ ('\n' :: u') ++ ctx ++ v' ++ fence ++ z')⟩]) := by
  obtain ⟨a, u, v, z, hdd⟩ := dedent_diffTemplate_decomp diff hdiff
  obtain ⟨a', u', v', z', hdc⟩ := dedent_contextTemplate_decomp ctx hctx
  have hne' : ctx.isEmpty = false := by
    cases ctx
    · exact absurd rfl hne
    · rfl
  refine ⟨?_, ⟨a, u, v, z, hdd⟩, ?_⟩
  · intro context
    cases context with
    | none =>
      refine ⟨match pf with
        | some t => pyStrip t
        | none => DEFAULT_SYSTEM_MSG, [], ?_⟩
      simp [build_messages]
    | some c =>
      by_cases hce : c.isEmpty
      · refine ⟨match pf with
          | some t => pyStrip t
          | none => DEFAULT_SYSTEM_MSG, [], ?_⟩
        simp [build_messages, hce]
      · refine ⟨match pf with
          | some t => pyStrip t
          | none => DEFAULT_SYSTEM_MSG, dedent (contextTemplate c), ?_⟩
        simp [build_messages, hce]
  · refine ⟨match pf with
      | some t => pyStrip t
      | none => DEFAULT_SYSTEM_MSG, a, u, v, z, a', u', v', z', ?_⟩
    rw [← hdd, ← hdc]
    simp [build_messages, hne']

/-- Witness for the amended C3 at a concrete diff and context. -/
theorem c3_amended_witness :
    ((splitLines "+x".toList).all headNonWs = true ∧
     (splitLines "ok".toList).all headNonWs = true ∧ "ok".toList ≠ []) ∧
    ((∀ context : Option PyStr, ∃ sys rest,
      build_messages none "+x".toList context
        = [⟨"system", sys⟩, ⟨"user", dedent (diffTemplate "+x".toList) ++ rest⟩]) ∧
    (∃ a u v z, dedent (diffTemplate "+x".toList)
        = a ++ fenceDiff ++ ('\n' :: u) ++ "+x".toList ++ v ++ fence ++ z) ∧
    (∃ sys a u v z a' u' v' z',
      build_messages none "+x".toList (some "ok".toList)
        = [⟨"system", sys⟩, ⟨"user",
            (a ++ fenceDiff ++ ('\n' :: u) ++ "+x".toList ++ v ++ fence ++ z)
              ++ (a' ++ fence ++ ('\n' :: u') ++ "ok".toList ++ v' ++ fence ++ z')⟩])) :=
  ⟨⟨by decide, by decide, by decide⟩,
    c3_amended none "+x".toList "ok".toList (by decide) (by decide) (by decide)⟩

/-- Claim C4 (counterexample): when the prompt file exists but is empty, the
system message is the empty string, not the built-in default instruction. -/
theorem c4_counterexample :
    ((build_messages (some []) ['d'] none).getD 0 ⟨"", []⟩).content = [] ∧
    ((build_messages (some []) ['d'] none).getD 0 ⟨"", []⟩).content
      ≠ DEFAULT_SYSTEM_MSG := by
  constructor
  · rfl
  · decide

/-- Claim C4 (amended): the system message is the stripped prompt-file content
whenever the prompt file exists — even when that content strips to empty — and
the built-in default instruction exactly when the file does not exist. -/
theorem c4_amended (t diff : PyStr) (ctx : Option PyStr) :
    (∃ user, build_messages (some t) diff ctx
        = [⟨"system", pyStrip t⟩, ⟨"user", user⟩]) ∧
    (∃ user, build_messages none diff ctx
        = [⟨"system", DEFAULT_SYSTEM_MSG⟩, ⟨"user", user⟩]) :=
  ⟨⟨_, rfl⟩, ⟨_, rfl⟩⟩

-- ===== run / get_commit_diff / main =====

/-- Outcome of the external `git show` process. -/
inductive GitOutcome where
  | ok : PyStr → GitOutcome
  | fail : PyStr → GitOutcome
  | timedOut : GitOutcome
deriving DecidableEq

/-- Exceptions `run` can raise: `CalledProcessError` (carrying the captured
standard error, as `check=True` raises it) and `TimeoutExpired`. -/
inductive RunExc where
  | calledProcessError : PyStr → RunExc
  | timeoutExpired : RunExc
deriving DecidableEq

/-- `run(cmd)`: decoded stdout on success; `CalledProcessError` on non-zero
exit; `TimeoutExpired` when the wait exceeds the timeout. -/
def run (git : GitOutcome) : Except RunExc PyStr :=
  match git with
  | GitOutcome.ok out => Except.ok out
  | GitOutcome.fail st => Except.error (RunExc.calledProcessError st)
  | GitOutcome.timedOut => Except.error RunExc.timeoutExpired

/-- `f"Error obtaining diff for commit {commit_hash}: {stderr_msg}"`. -/
def diffErrMsg (commit : String) (stderr : PyStr) : PyStr :=
  "Error obtaining diff for commit ".toList ++ commit.toList ++ ": ".toList ++ stderr

/-- How `get_commit_diff` ends: a diff, a printed diagnostic followed by
`sys.exit(code)`, or an exception that propagates uncaught. -/
inductive DiffResult where
  | diff : PyStr → DiffResult
  | fatal : PyStr → Nat → DiffResult
  | uncaught : RunExc → DiffResult
deriving DecidableEq

/-- `get_commit_diff(commit_hash)`: catches only `CalledProcessError`; a
`TimeoutExpired` from `run` propagates uncaught. -/
def get_commit_diff (commit : String) (git : GitOutcome) : DiffResult :=
  match run git with
  | Except.ok out => DiffResult.diff out
  | Except.error (RunExc.calledProcessError st) =>
      DiffResult.fatal (diffErrMsg commit st) 1
  | Except.error RunExc.timeoutExpired => DiffResult.uncaught RunExc.timeoutExpired

/-- Observable events of one invocation of `main`. -/
inductive Ev where
  | subprocessCall : Ev
  | networkCall : List Message → Ev
  | errPrint : PyStr → Ev
  | outPrint : PyStr → Ev
deriving DecidableEq

/-- How the process ends: `sys.exit(code)` / normal return, or an uncaught
exception handled by the interpreter's default handler (traceback on stderr,
non-zero interpreter exit). -/
inductive Termination where
  | exited : Nat → Termination
  | uncaughtException : RunExc → Termination
deriving DecidableEq

/-- Configuration resolved by `main`: environment and command line. -/
structure Config where
  openai_api_key : Option String
  commit : String
  no_context : Bool
  promptFile : Option PyStr
  rootParts : List String
  repoTree : FS
  max_context_chars : Nat

/-- Outcome of the chat-completion call. -/
inductive ApiOutcome where
  | ok : PyStr → ApiOutcome
  | fail : PyStr → ApiOutcome
deriving DecidableEq

/-- `"Environment variable OPENAI_API_KEY is not set."`. -/
def KEY_MISSING_MSG : PyStr :=
  "Environment variable OPENAI_API_KEY is not set.".toList

/-- The banner printed above the review. -/
def REVIEW_BANNER : PyStr := "\n=== AI CODE REVIEW ===\n".toList

/-- `main()`: check the credential, fetch the diff (one subprocess call),
collect context unless suppressed, build the messages, make one network call,
print the response.  Returns the ordered event trace and the termination. -/
def main_model (cfg : Config) (git : GitOutcome) (api : ApiOutcome) :
    List Ev × Termination :=
  match cfg.openai_api_key with
  | none => ([Ev.errPrint KEY_MISSING_MSG], Termination.exited 1)
  | some key =>
    if key = "" then ([Ev.errPrint KEY_MISSING_MSG], Termination.exited 1)
    else
      match get_commit_diff cfg.commit git with
      | DiffResult.uncaught e =>
          ([Ev.subprocessCall], Termination.uncaughtException e)
      | DiffResult.fatal msg code =>
          ([Ev.subprocessCall, Ev.errPrint msg], Termination.exited code)
      | DiffResult.diff d =>
        let context := if cfg.no_context then none
          else some (collect_repo_context cfg.rootParts cfg.repoTree
            cfg.max_context_chars)
        let messages := build_messages cfg.promptFile d context
        match api with
        | ApiOutcome.fail m =>
            ([Ev.subprocessCall, Ev.networkCall messages,
              Ev.errPrint ("OpenAI API error: ".toList ++ m)],
             Termination.exited 1)
        | ApiOutcome.ok text =>
            ([Ev.subprocessCall, Ev.networkCall messages,
              Ev.outPrint REVIEW_BANNER, Ev.outPrint (pyStrip text)],
             Termination.exited 0)

-- ===== Claims about error handling =====

/-- Claim C5 (counterexample): on a timeout the diff fetch does not follow
the non-zero-exit contract: `get_commit_diff` yields an uncaught
`TimeoutExpired`, not the printed-diagnostic-and-`sys.exit(1)` path. -/
theorem c5_counterexample :
    get_commit_diff "HEAD" GitOutcome.timedOut
      = DiffResult.uncaught RunExc.timeoutExpired ∧
    ∀ msg, get_commit_diff "HEAD" GitOutcome.timedOut ≠ DiffResult.fatal msg 1 := by
  refine ⟨rfl, fun msg => ?_⟩
  simp [get_commit_diff, run]

/-- Claim C5 (amended): a timeout of the version-control command raises
`TimeoutExpired` inside `run`; `get_commit_diff` catches only
`CalledProcessError`, so the exception propagates uncaught and the process is
terminated by the interpreter's default handler (non-zero exit with a
traceback), without the captured-stderr diagnostic used for a non-zero exit
status. -/
theorem c5_amended (commit : String) (cfg : Config) (api : ApiOutcome)
    (key : String) (hk : cfg.openai_api_key = some key) (hne : key ≠ "") :
    run GitOutcome.timedOut = Except.error RunExc.timeoutExpired ∧
    get_commit_diff commit GitOutcome.timedOut
      = DiffResult.uncaught RunExc.timeoutExpired ∧
    main_model cfg GitOutcome.timedOut api
      = ([Ev.subprocessCall], Termination.uncaughtException RunExc.timeoutExpired) := by
  refine ⟨rfl, rfl, ?_⟩
  simp [main_model, hk, hne, get_commit_diff, run]

/-- A concrete configuration with a valid credential. -/
def demoCfg : Config :=
  ⟨some "k", "HEAD", false, none, ["repo"], demoTree, 1000⟩

/-- Witness for the amended C5 at a concrete configuration. -/
theorem c5_amended_witness :
    (demoCfg.openai_api_key = some "k" ∧ "k" ≠ "") ∧
    (run GitOutcome.timedOut = Except.error RunExc.timeoutExpired ∧
     get_commit_diff "HEAD" GitOutcome.timedOut
       = DiffResult.uncaught RunExc.timeoutExpired ∧
     main_model demoCfg GitOutcome.timedOut (ApiOutcome.ok [])
       = ([Ev.subprocessCall], Termination.uncaughtException RunExc.timeoutExpired)) :=
  ⟨⟨rfl, by decide⟩,
    c5_amended "HEAD" demoCfg (ApiOutcome.ok []) "k" rfl (by decide)⟩

/-- Claim C6: when the version-control command exits non-zero, the tool
prints to standard error a diagnostic containing the requested commit
reference, exits with status exactly 1, and makes no network call. -/
theorem c6_nonzero_exit (cfg : Config) (api : ApiOutcome) (st : PyStr)
    (key : String) (hk : cfg.openai_api_key = some key) (hne : key ≠ "") :
    main_model cfg (GitOutcome.fail st) api
      = ([Ev.subprocessCall, Ev.errPrint (diffErrMsg cfg.commit st)],
         Termination.exited 1) ∧
    (∃ pre post, diffErrMsg cfg.commit st = pre ++ cfg.commit.toList ++ post) ∧
    (∀ ms, Ev.networkCall ms ∉ (main_model cfg (GitOutcome.fail st) api).1) := by
  have h1 : main_model cfg (GitOutcome.fail st) api
      = ([Ev.subprocessCall, Ev.errPrint (diffErrMsg cfg.commit st)],
         Termination.exited 1) := by
    simp [main_model, hk, hne, get_commit_diff, run]
  refine ⟨h1, ⟨"Error obtaining diff for commit ".toList, ": ".toList ++ st, ?_⟩, ?_⟩
  · simp [diffErrMsg, List.append_assoc]
  · rw [h1]
    intro ms
    simp

/-- Witness for C6 at a concrete configuration and stderr text. -/
theorem c6_nonzero_exit_witness :
    (demoCfg.openai_api_key = some "k" ∧ "k" ≠ "") ∧
    (main_model demoCfg (GitOutcome.fail "boom".toList) (ApiOutcome.ok [])
      = ([Ev.subprocessCall, Ev.errPrint (diffErrMsg "HEAD" "boom".toList)],
         Termination.exited 1) ∧
    (∃ pre post, diffErrMsg "HEAD" "boom".toList = pre ++ "HEAD".toList ++ post) ∧
    (∀ ms, Ev.networkCall ms
        ∉ (main_model demoCfg (GitOutcome.fail "boom".toList) (ApiOutcome.ok [])).1)) :=
  ⟨⟨rfl, by decide⟩,
    c6_nonzero_exit demoCfg (ApiOutcome.ok []) "boom".toList "k" rfl (by decide)⟩

/-- Claim C8: with the credential unset or empty, `main` prints a message to
standard error and exits with status exactly 1, having invoked no subprocess
and made no network call. -/
theorem c8_missing_key (cfg : Config) (git : GitOutcome) (api : ApiOutcome)
    (h : cfg.openai_api_key = none ∨ cfg.openai_api_key = some "") :
    main_model cfg git api
      = ([Ev.errPrint KEY_MISSING_MSG], Termination.exited 1) ∧
    Ev.subprocessCall ∉ (main_model cfg git api).1 ∧
    (∀ ms, Ev.networkCall ms ∉ (main_model cfg git api).1) := by
  have h1 : main_model cfg git api
      = ([Ev.errPrint KEY_MISSING_MSG], Termination.exited 1) := by
    rcases h with h | h <;> simp [main_model, h]
  refine ⟨h1, ?_, ?_⟩
  · rw [h1]
    simp
  · rw [h1]
    intro ms
    simp

/-- A concrete configuration with the credential unset. -/
def demoCfgNoKey : Config :=
  ⟨none, "HEAD", false, none, ["repo"], demoTree, 1000⟩

/-- Witness for C8 at a concrete configuration. -/
theorem c8_missing_key_witness :
    (demoCfgNoKey.openai_api_key = none ∨ demoCfgNoKey.openai_api_key = some "") ∧
    (main_model demoCfgNoKey (GitOutcome.ok []) (ApiOutcome.ok [])
      = ([Ev.errPrint KEY_MISSING_MSG], Termination.exited 1) ∧
    Ev.subprocessCall ∉ (main_model demoCfgNoKey (GitOutcome.ok []) (ApiOutcome.ok [])).1 ∧
    (∀ ms, Ev.networkCall ms
        ∉ (main_model demoCfgNoKey (GitOutcome.ok []) (ApiOutcome.ok [])).1)) :=
  ⟨Or.inl rfl,
    c8_missing_key demoCfgNoKey (GitOutcome.ok []) (ApiOutcome.ok []) (Or.inl rfl)⟩
